import Mathlib

/-!
Shallow embedding of the request-handling core of the `octopus` forwarding
HTTP proxy (files `src/http/headers.rs` and `src/request.rs`), together with
proofs settling the specification claims about it.

Conventions of the embedding:
* Rust byte buffers (`Vec<u8>`, `&[u8]`) are `List Nat` (each entry a byte value).
* Rust `usize` arithmetic is `Nat`; the only place an overflow bound matters is
  `str::parse::<usize>`, where the 64-bit bound is made explicit.
* A Rust panic (`unwrap`, out-of-bounds indexing) is modelled as `Option.none`
  or as a dedicated `panic`-style constructor of a result type, so that a panic
  is observably distinct from a recoverable `Err` return.
* `HashMap<String, LinkedList<OctopusHeader>>` is modelled as an association
  list in first-insertion key order.  The map's iteration order is unspecified
  in Rust; serialization writes each field at index `field.order` of a
  row table, so the serialized output does not depend on that order.
-/

/-- Byte strings: a Rust `Vec<u8>` / `&[u8]`. -/
abbrev Bytes := List Nat

/-- UTF-8 encoding of one character, as Rust's `str` stores it.  Mirrors the
standard UTF-8 encoder; used to turn Lean `String`s into the byte sequences the
Rust code manipulates. -/
def charBytes (c : Char) : Bytes :=
  let n := c.toNat
  if n < 0x80 then [n]
  else if n < 0x800 then
    [0xC0 ||| (n >>> 6), 0x80 ||| (n &&& 0x3F)]
  else if n < 0x10000 then
    [0xE0 ||| (n >>> 12), 0x80 ||| ((n >>> 6) &&& 0x3F), 0x80 ||| (n &&& 0x3F)]
  else
    [0xF0 ||| (n >>> 18), 0x80 ||| ((n >>> 12) &&& 0x3F),
     0x80 ||| ((n >>> 6) &&& 0x3F), 0x80 ||| (n &&& 0x3F)]

/-- The UTF-8 bytes of a string: Rust's `str::as_bytes` / `String::len` view. -/
def strBytes (s : String) : Bytes :=
  (s.data.map charBytes).flatten

/-- Is `b` a UTF-8 continuation byte (`0x80..=0xBF`)? -/
def isCont (b : Nat) : Bool :=
  0x80 ≤ b && b ≤ 0xBF

/-- Decides whether a byte sequence is valid UTF-8, exactly the success
condition of Rust's `String::from_utf8` (rejecting overlong forms, surrogates
and code points above `0x10FFFF`). -/
def validUtf8 : Bytes → Bool
  | [] => true
  | b :: rest =>
    if b ≤ 0x7F then validUtf8 rest
    else if 0xC2 ≤ b && b ≤ 0xDF then
      match rest with
      | c1 :: r => isCont c1 && validUtf8 r
      | [] => false
    else if b == 0xE0 then
      match rest with
      | c1 :: c2 :: r => (0xA0 ≤ c1 && c1 ≤ 0xBF) && isCont c2 && validUtf8 r
      | _ => false
    else if (0xE1 ≤ b && b ≤ 0xEC) || b == 0xEE || b == 0xEF then
      match rest with
      | c1 :: c2 :: r => isCont c1 && isCont c2 && validUtf8 r
      | _ => false
    else if b == 0xED then
      match rest with
      | c1 :: c2 :: r => (0x80 ≤ c1 && c1 ≤ 0x9F) && isCont c2 && validUtf8 r
      | _ => false
    else if b == 0xF0 then
      match rest with
      | c1 :: c2 :: c3 :: r =>
        (0x90 ≤ c1 && c1 ≤ 0xBF) && isCont c2 && isCont c3 && validUtf8 r
      | _ => false
    else if 0xF1 ≤ b && b ≤ 0xF3 then
      match rest with
      | c1 :: c2 :: c3 :: r => isCont c1 && isCont c2 && isCont c3 && validUtf8 r
      | _ => false
    else if b == 0xF4 then
      match rest with
      | c1 :: c2 :: c3 :: r =>
        (0x80 ≤ c1 && c1 ≤ 0x8F) && isCont c2 && isCont c3 && validUtf8 r
      | _ => false
    else false

/-- Lowercasing of a header name: models Rust `String::to_lowercase` as used on
header names (the two agree on ASCII, which is all an HTTP header name may
contain). -/
def lowerName (s : String) : String :=
  ⟨s.data.map Char.toLower⟩

/-- Accumulate a decimal digit string; `none` as soon as a non-digit byte is
seen.  Byte 48 is `'0'`, byte 57 is `'9'`. -/
def digitsToNat (l : Bytes) : Option Nat :=
  l.foldl
    (fun acc b =>
      match acc with
      | none => none
      | some v => if 48 ≤ b && b ≤ 57 then some (v * 10 + (b - 48)) else none)
    (some 0)

/-- Models the composite `str::from_utf8(bytes).unwrap().parse::<usize>()`
success value: an optional leading `'+'` (byte 43) followed by at least one
ASCII digit, with the value below `2^64` (64-bit `usize`; Rust errors on
overflow).  Bytes that are not of this shape — including invalid UTF-8, which
can never be all digits — give `none`. -/
def parseUsize (bytes : Bytes) : Option Nat :=
  let digits := match bytes with
    | 43 :: rest => rest
    | _ => bytes
  if digits.isEmpty then none
  else
    match digitsToNat digits with
    | some v => if v < 2 ^ 64 then some v else none
    | none => none

/-- One stored header field: struct `OctopusHeader` of `src/http/headers.rs`.
The source also stores `value_str : String` (the UTF-8 decoding of `value`,
whose construction `String::from_utf8(..).unwrap()` panics on invalid UTF-8);
that panic is modelled in `Headers.insert`, and `value_str` itself is read by
no operation, so the field is not carried here. -/
structure OctopusHeader where
  original_name : String
  value : Bytes
  order : Nat
  length_hint : Nat
deriving Repr, DecidableEq

/-- `OctopusHeader::new`: `length_hint = original.len() + contents.len() + 4`
(`HEADER_EXTRA_BYTES` accounts for `": "` and `"\r\n"`); `original.len()` is
the Rust byte length of the name. -/
def OctopusHeader.new (original : String) (contents : Bytes) (order : Nat) :
    OctopusHeader :=
  { original_name := original
    value := contents
    order := order
    length_hint := (strBytes original).length + contents.length + 4 }

/-- The header store: struct `Headers` of `src/http/headers.rs`.
`data` models `HashMap<String, LinkedList<OctopusHeader>>` as an association
list (keys unique, first-insertion order). -/
structure Headers where
  data : List (String × List OctopusHeader)
  total_count : Nat
deriving Repr, DecidableEq

/-- `HashMap::get` on the modelled map. -/
def getBucket (data : List (String × List OctopusHeader)) (key : String) :
    Option (List OctopusHeader) :=
  (data.find? (fun p => p.1 == key)).map (fun p => p.2)

/-- The map update performed by `Headers::insert`: `push_back` onto the key's
bucket, creating the bucket if absent (`Entry::Occupied` / `Entry::Vacant`). -/
def putBucket (data : List (String × List OctopusHeader)) (key : String)
    (f : OctopusHeader) : List (String × List OctopusHeader) :=
  match data with
  | [] => [(key, [f])]
  | (k, fs) :: rest =>
    if k == key then (k, fs ++ [f]) :: rest
    else (k, fs) :: putBucket rest key f

/-- `Headers::new`. -/
def Headers.new : Headers :=
  { data := [], total_count := 0 }

/-- `Headers::insert`: lowercase the name for the key, append a field with
`order = total_count`, increment `total_count`.  `none` models the panic of
`String::from_utf8(value).unwrap()` inside `OctopusHeader::new` when the value
is not valid UTF-8. -/
def Headers.insert (h : Headers) (name : String) (value : Bytes) :
    Option Headers :=
  if validUtf8 value then
    some
      { data := putBucket h.data (lowerName name)
          (OctopusHeader.new name value h.total_count)
        total_count := h.total_count + 1 }
  else none

/-- The insertion loop of `Headers::from_raw`, over an already-tokenized
`(name, value)` list. -/
def Headers.insertAll (h : Headers) (tokens : List (String × Bytes)) :
    Option Headers :=
  tokens.foldlM (fun acc t => acc.insert t.1 t.2) h

/-- `Headers::validate`: at most one entry in the `"host"` bucket and at most
one in the `"content-length"` bucket. -/
def Headers.validate (h : Headers) : Bool :=
  (match getBucket h.data "host" with
   | some l => decide (l.length ≤ 1)
   | none => true)
  &&
  (match getBucket h.data "content-length" with
   | some l => decide (l.length ≤ 1)
   | none => true)

/-- Construction failure of `Headers::from_raw`: `validationFailed` is the
`io::Error` return; `utf8Panic` is the (non-returned) process abort from the
`unwrap` on invalid UTF-8 in a value. -/
inductive HeaderError where
  | utf8Panic
  | validationFailed
deriving Repr, DecidableEq

/-- `Headers::from_raw`.  Note the source sets `total_count = raw.len()`
*before* the insertion loop, so inserted fields receive orders
`raw.len() .. 2*raw.len()-1`. -/
def Headers.from_raw (raw : List (String × Bytes)) : Except HeaderError Headers :=
  match Headers.insertAll { data := [], total_count := raw.length } raw with
  | none => .error .utf8Panic
  | some h => if h.validate then .ok h else .error .validationFailed

/-- `Headers::get`: case-insensitive lookup returning the front (first
inserted) field's value of the key's bucket. -/
def Headers.get (h : Headers) (name : String) : Option Bytes :=
  match getBucket h.data (lowerName name) with
  | some (f :: _) => some f.value
  | some [] => none
  | none => none

/-- Result of `Headers::content_length`: `value`/`absent` are the
`Some`/`None` returns; `panic` is the abort of
`str::from_utf8(value).unwrap().parse().unwrap()` on a value that is not a
valid unsigned integer. -/
inductive ClResult where
  | absent
  | value (n : Nat)
  | panic
deriving Repr, DecidableEq

/-- `Headers::content_length`. -/
def Headers.content_length (h : Headers) : ClResult :=
  match h.get "content-length" with
  | none => .absent
  | some v =>
    match parseUsize v with
    | some n => .value n
    | none => .panic

/-- One serialized header row: `original_name ++ ": " ++ value ++ "\r\n"`
(bytes 58 32 are `": "`, bytes 13 10 are `"\r\n"`, the source's
`HEADER_SEPARATOR` and `HEADER_NEWLINE`). -/
def renderHeader (f : OctopusHeader) : Bytes :=
  strBytes f.original_name ++ [58, 32] ++ f.value ++ [13, 10]

/-- The row-table write `temp[header.order()].extend(row)` of
`Headers::to_utf8`; `none` models the panic of out-of-bounds `Vec` indexing. -/
def extendRow (temp : List Bytes) (i : Nat) (row : Bytes) :
    Option (List Bytes) :=
  if h : i < temp.length then some (temp.set i (temp.get ⟨i, h⟩ ++ row))
  else none

/-- The inner loop of `Headers::to_utf8` over one bucket. -/
def writeRows (temp : List Bytes) (fs : List OctopusHeader) :
    Option (List Bytes) :=
  fs.foldlM (fun t f => extendRow t f.order (renderHeader f)) temp

/-- `Headers::to_utf8` (the serialization, exposed as `Into<Vec<u8>>`): build a
row table of `total_count + 1` empty rows, write every field's rendered line at
index `field.order`, place `"\r\n"` in the final row, and concatenate. -/
def Headers.to_utf8 (h : Headers) : Option Bytes :=
  match h.data.foldlM (fun t p => writeRows t p.2)
      (List.replicate (h.total_count + 1) []) with
  | none => none
  | some temp => some ((temp.set h.total_count [13, 10]).flatten)

/-- The wire rendering of one tokenized field, for round-trip statements:
`name ++ ": " ++ value ++ "\r\n"`. -/
def lineBytes (t : String × Bytes) : Bytes :=
  strBytes t.1 ++ [58, 32] ++ t.2 ++ [13, 10]

/-- The wire rendering of a whole tokenized header block: every field in input
order, then the `"\r\n"` terminator. -/
def headerBlockBytes (tokens : List (String × Bytes)) : Bytes :=
  (tokens.map lineBytes).flatten ++ [13, 10]

/-- Position of the first occurrence of `c` in `url`: models `str::find` on a
character pattern.  Rust returns a byte index and this returns a character
index, but byte index is strictly monotone in character index, so every
comparison of two first-occurrence positions agrees between the two. -/
def strFindIdx (url : String) (c : Char) : Option Nat :=
  url.data.findIdx? (fun x => x == c)

/-- `url_is_relative` of `src/request.rs`: a target is relative when it
contains a `/` and either contains no `:` or the first `/` is before the first
`:`; a target without a `/` is never relative. -/
def url_is_relative (url : String) : Bool :=
  let colon := strFindIdx url ':'
  let slash := strFindIdx url '/'
  match slash with
  | some s =>
    match colon with
    | some c => decide (s < c)
    | none => true
  | none => false

/-- The request model: struct `Request` of `src/request.rs`.  `url` is the byte
buffer handed to `url::Url::parse` (URL parsing itself is an external crate and
is not modelled); `path` stands for the parsed URL's `.path()` component, read
by `Request::serialize`. -/
structure Request where
  method : String
  url : Bytes
  path : String
  version : Nat
  headers : Headers
deriving Repr, DecidableEq

/-- Outcome of `Request::from_raw`: `panic` is the abort of
`headers.get("Host").unwrap()` on a relative target with no Host header (the
source marks the site `FIXME: handle Host header missing`); `headerError`
propagates a `Headers::from_raw` construction failure, so no partial request
reaches the forwarding stage. -/
inductive ReqResult where
  | ok (r : Request)
  | headerError (e : HeaderError)
  | panic
deriving Repr, DecidableEq

/-- `Request::from_raw`, over the parsed request line (method, raw target,
minor version) and the tokenized header list.  For a relative target the URL
buffer is `"http://"` (the hardcoded `secure = false` scheme) followed by the
Host header value and the raw path; otherwise it is the raw path itself.
`path` records the raw target (for a resolved origin-form target this is
exactly the parsed URL's path). -/
def Request.from_raw (method : String) (rawPath : String) (version : Nat)
    (tokens : List (String × Bytes)) : ReqResult :=
  match Headers.from_raw tokens with
  | .error e => .headerError e
  | .ok headers =>
    if url_is_relative rawPath then
      match headers.get "Host" with
      | none => .panic
      | some host =>
        .ok
          { method := method
            url := strBytes "http://" ++ host ++ strBytes rawPath
            path := rawPath
            version := version
            headers := headers }
    else
      .ok
        { method := method
          url := strBytes rawPath
          path := rawPath
          version := version
          headers := headers }

/-- `Request::serialize`: the request line
`"{method} {url.path} HTTP/1.{version}\r\n"`, then the header-store
serialization, then one further `"\r\n"` (line 120 of `src/request.rs`).
`none` models the panic when the header serialization itself panics. -/
def Request.serialize (r : Request) : Option Bytes :=
  match r.headers.to_utf8 with
  | none => none
  | some hb =>
    some (strBytes (r.method ++ " " ++ r.path ++ " HTTP/1."
            ++ toString r.version ++ "\r\n")
          ++ hb ++ [13, 10])

/-- The fixed response written downstream when `Request::connect` fails:
`b"HTTP/1.1 501 Internal Server Error\r\nContent-Length: 6\r\nSorry\n"`. -/
def errorResponseBytes : Bytes :=
  strBytes "HTTP/1.1 501 Internal Server Error\r\nContent-Length: 6\r\nSorry\n"

/-- `Request::connect`'s retry structure, abstracted over the transport: the
loop makes attempts 0 and 1, returning the first success, then a final
attempt 2 whose outcome is returned as is.  The connection succeeds exactly
when some attempt among 0, 1, 2 succeeds. -/
def connectWithRetry (attempt : Nat → Bool) : Bool :=
  if attempt 0 then true
  else if attempt 1 then true
  else attempt 2

/-- The downstream bytes produced by the copy loop of `Request::forward` on
the success path: each upstream read chunk is written through unchanged until
a zero-length read (clean EOF) stops the loop. -/
def relayChunks : List Bytes → Bytes
  | [] => []
  | c :: rest => if c.isEmpty then [] else c ++ relayChunks rest

/-- The bytes `Request::forward` writes to the downstream sink, as a function
of the connect outcome (`attempt`) and the upstream read chunks.  On connect
failure the fixed `errorResponseBytes` are written and the function returns
normally; on success the serialized request goes upstream (a serialization
panic is `none`) and downstream receives the relayed chunks. -/
def Request.forwardOutput (r : Request) (attempt : Nat → Bool)
    (chunks : List Bytes) : Option Bytes :=
  if connectWithRetry attempt then
    match r.serialize with
    | none => none
    | some _ => some (relayChunks chunks)
  else
    some errorResponseBytes

/-- The store produced by a successful `Headers.insert` (pure form, for
reasoning). -/
def Headers.insertP (h : Headers) (name : String) (value : Bytes) : Headers :=
  { data := putBucket h.data (lowerName name)
      (OctopusHeader.new name value h.total_count)
    total_count := h.total_count + 1 }

/-- Pure form of the `Headers.insertAll` loop. -/
def Headers.insertAllP (h : Headers) (tokens : List (String × Bytes)) : Headers :=
  tokens.foldl (fun acc t => acc.insertP t.1 t.2) h

/-- Every field stored anywhere in the store, in bucket order. -/
def allFields (h : Headers) : List OctopusHeader :=
  (h.data.map Prod.snd).flatten

/-- The fields the insertion loop creates for a token list when the store's
counter starts at `n`: the i-th token becomes a field with order `n + i`. -/
def mkFields : Nat → List (String × Bytes) → List OctopusHeader
  | _, [] => []
  | n, t :: ts => OctopusHeader.new t.1 t.2 n :: mkFields (n + 1) ts

theorem insert_eq_some {h h' : Headers} {name : String} {value : Bytes}
    (hs : h.insert name value = some h') : h' = h.insertP name value := by
  unfold Headers.insert at hs
  by_cases hv : validUtf8 value = true
  · simp [hv] at hs
    exact hs.symm
  · simp [hv] at hs

theorem insert_of_valid (h : Headers) (name : String) {value : Bytes}
    (hv : validUtf8 value = true) :
    h.insert name value = some (h.insertP name value) := by
  simp [Headers.insert, hv, Headers.insertP]

theorem insertAll_eq_some :
    ∀ {tokens : List (String × Bytes)} {h h' : Headers},
      h.insertAll tokens = some h' → h' = h.insertAllP tokens := by
  intro tokens
  induction tokens with
  | nil =>
    intro h h' hs
    simpa [Headers.insertAll, Headers.insertAllP] using hs.symm
  | cons t ts ih =>
    intro h h' hs
    simp only [Headers.insertAll, List.foldlM_cons] at hs
    cases hins : h.insert t.1 t.2 with
    | none =>
      rw [hins] at hs
      simp at hs
    | some h₁ =>
      rw [hins] at hs
      simp at hs
      have h₁eq := insert_eq_some hins
      subst h₁eq
      simpa [Headers.insertAllP] using ih hs

theorem insertAll_of_valid :
    ∀ {tokens : List (String × Bytes)} (h : Headers),
      (∀ t ∈ tokens, validUtf8 t.2 = true) →
      h.insertAll tokens = some (h.insertAllP tokens) := by
  intro tokens
  induction tokens with
  | nil =>
    intro h _
    simp [Headers.insertAll, Headers.insertAllP]
  | cons t ts ih =>
    intro h hv
    have hvt : validUtf8 t.2 = true := hv t (List.mem_cons_self t ts)
    simp only [Headers.insertAll, List.foldlM_cons, insert_of_valid h t.1 hvt]
    simp only [Option.bind_eq_bind, Option.some_bind]
    simpa [Headers.insertAllP] using
      ih (h.insertP t.1 t.2) (fun u hu => hv u (List.mem_cons_of_mem t hu))

theorem total_count_insertAllP :
    ∀ (tokens : List (String × Bytes)) (h : Headers),
      (h.insertAllP tokens).total_count = h.total_count + tokens.length := by
  intro tokens
  induction tokens with
  | nil => intro h; simp [Headers.insertAllP]
  | cons t ts ih =>
    intro h
    show (Headers.insertAllP (h.insertP t.1 t.2) ts).total_count = _
    rw [ih]
    show h.total_count + 1 + ts.length = h.total_count + (ts.length + 1)
    omega

theorem allFields_putBucket (data : List (String × List OctopusHeader))
    (key : String) (f : OctopusHeader) :
    (((putBucket data key f).map Prod.snd).flatten).Perm
      (f :: (data.map Prod.snd).flatten) := by
  induction data with
  | nil => simp [putBucket]
  | cons p rest ih =>
    obtain ⟨k, fs⟩ := p
    by_cases hk : (k == key) = true
    · rw [putBucket, if_pos hk]
      simp only [List.map_cons, List.flatten_cons]
      exact (List.perm_append_singleton f fs).append_right _
    · rw [putBucket, if_neg hk]
      simp only [List.map_cons, List.flatten_cons]
      exact (ih.append_left fs).trans List.perm_middle

theorem allFields_insertP (h : Headers) (name : String) (value : Bytes) :
    (allFields (h.insertP name value)).Perm
      (OctopusHeader.new name value h.total_count :: allFields h) :=
  allFields_putBucket h.data (lowerName name)
    (OctopusHeader.new name value h.total_count)

theorem allFields_insertAllP :
    ∀ (tokens : List (String × Bytes)) (h : Headers),
      (allFields (h.insertAllP tokens)).Perm
        (allFields h ++ mkFields h.total_count tokens) := by
  intro tokens
  induction tokens with
  | nil => intro h; simp [Headers.insertAllP, mkFields]
  | cons t ts ih =>
    intro h
    have step : (h.insertAllP (t :: ts)) = ((h.insertP t.1 t.2).insertAllP ts) := rfl
    rw [step]
    have h1 := ih (h.insertP t.1 t.2)
    have h2 : (allFields (h.insertP t.1 t.2)
          ++ mkFields (h.total_count + 1) ts).Perm
        (OctopusHeader.new t.1 t.2 h.total_count
          :: (allFields h ++ mkFields (h.total_count + 1) ts)) :=
      (allFields_insertP h t.1 t.2).append_right _
    have h4 : (allFields h
          ++ OctopusHeader.new t.1 t.2 h.total_count
            :: mkFields (h.total_count + 1) ts).Perm
        (OctopusHeader.new t.1 t.2 h.total_count
          :: (allFields h ++ mkFields (h.total_count + 1) ts)) :=
      List.perm_middle
    exact (h1.trans h2).trans h4.symm

theorem mkFields_mem_order :
    ∀ {tokens : List (String × Bytes)} {n : Nat} {f : OctopusHeader},
      f ∈ mkFields n tokens → n ≤ f.order ∧ f.order < n + tokens.length := by
  intro tokens
  induction tokens with
  | nil => intro n f hf; simp [mkFields] at hf
  | cons t ts ih =>
    intro n f hf
    rw [mkFields] at hf
    rcases List.mem_cons.mp hf with h | h
    · subst h
      show n ≤ n ∧ n < n + (ts.length + 1)
      omega
    · have := ih h
      constructor
      · omega
      · show f.order < n + (ts.length + 1)
        omega

theorem mkFields_filter_out {tokens : List (String × Bytes)} {n k : Nat}
    (hk : k < n ∨ n + tokens.length ≤ k) :
    (mkFields n tokens).filter (fun f => f.order == k) = [] := by
  rw [List.filter_eq_nil_iff]
  intro f hf
  have := mkFields_mem_order hf
  simp only [beq_iff_eq]
  omega

theorem mkFields_filter_hit :
    ∀ {tokens : List (String × Bytes)} {i : Nat} (h : i < tokens.length) (n : Nat),
      (mkFields n tokens).filter (fun f => f.order == n + i)
        = [OctopusHeader.new (tokens.get ⟨i, h⟩).1 (tokens.get ⟨i, h⟩).2 (n + i)] := by
  intro tokens
  induction tokens with
  | nil => intro i h; simp at h
  | cons t ts ih =>
    intro i h n
    cases i with
    | zero =>
      rw [mkFields, List.filter_cons]
      have horder : ((OctopusHeader.new t.1 t.2 n).order == n + 0) = true := by
        simp [OctopusHeader.new]
      rw [horder, if_pos rfl, mkFields_filter_out (Or.inl (by omega))]
      rfl
    | succ j =>
      rw [mkFields, List.filter_cons]
      have horder : ((OctopusHeader.new t.1 t.2 n).order == n + (j + 1)) = false := by
        simp only [OctopusHeader.new, beq_eq_false_iff_ne, ne_eq]
        omega
      rw [horder]
      simp only [Bool.false_eq_true, if_false]
      have hj : j < ts.length := Nat.lt_of_succ_lt_succ h
      have hres := ih hj (n + 1)
      have harith : n + 1 + j = n + (j + 1) := by omega
      rw [harith] at hres
      exact hres

theorem getBucket_nil (k : String) : getBucket [] k = none := rfl

theorem getBucket_cons (k' : String) (fs : List OctopusHeader)
    (rest : List (String × List OctopusHeader)) (k : String) :
    getBucket ((k', fs) :: rest) k =
      if (k' == k) = true then some fs else getBucket rest k := by
  unfold getBucket
  rw [List.find?_cons]
  cases h : (k' == k) with
  | true => simp [h]
  | false => simp [h]

theorem getBucket_putBucket (data : List (String × List OctopusHeader))
    (key : String) (f : OctopusHeader) (k : String) :
    getBucket (putBucket data key f) k =
      if k = key then some ((getBucket data key).getD [] ++ [f])
      else getBucket data k := by
  induction data with
  | nil =>
    by_cases hk : k = key
    · subst hk
      simp [putBucket, getBucket_cons, getBucket_nil]
    · rw [putBucket, getBucket_cons,
        if_neg (by simp only [beq_iff_eq]; exact fun hc => hk hc.symm),
        if_neg hk]
  | cons p rest ih =>
    obtain ⟨k', fs⟩ := p
    by_cases hk' : (k' == key) = true
    · have hkey : k' = key := by simpa using hk'
      subst hkey
      rw [putBucket, if_pos (by simp)]
      by_cases hk : k = k'
      · subst hk
        rw [getBucket_cons, if_pos (by simp), if_pos rfl, getBucket_cons,
          if_pos (by simp)]
        rfl
      · rw [getBucket_cons,
          if_neg (by simp only [beq_iff_eq]; exact fun hc => hk hc.symm),
          if_neg hk, getBucket_cons,
          if_neg (by simp only [beq_iff_eq]; exact fun hc => hk hc.symm)]
    · rw [putBucket, if_neg hk']
      by_cases hkk : (k' == k) = true
      · have hkeq : k' = k := by simpa using hkk
        subst hkeq
        have hne : ¬k' = key := by simpa using hk'
        rw [getBucket_cons, if_pos (by simp), if_neg hne, getBucket_cons,
          if_pos (by simp)]
      · by_cases hk : k = key
        · rw [getBucket_cons, if_neg hkk, ih, if_pos hk, if_pos hk,
            getBucket_cons, if_neg hk']
        · rw [getBucket_cons, if_neg hkk, ih, if_neg hk, if_neg hk,
            getBucket_cons, if_neg hkk]

theorem new_original_name (name : String) (v : Bytes) (n : Nat) :
    (OctopusHeader.new name v n).original_name = name := rfl

theorem new_value (name : String) (v : Bytes) (n : Nat) :
    (OctopusHeader.new name v n).value = v := rfl

theorem new_order (name : String) (v : Bytes) (n : Nat) :
    (OctopusHeader.new name v n).order = n := rfl

theorem getBucket_insertAllP_some :
    ∀ (tokens : List (String × Bytes)) (s : Headers) (k : String)
      (l : List OctopusHeader), getBucket s.data k = some l →
      getBucket (s.insertAllP tokens).data k =
        some (l ++ (mkFields s.total_count tokens).filter
          (fun f => lowerName f.original_name == k)) := by
  intro tokens
  induction tokens with
  | nil => intro s k l hl; simpa [Headers.insertAllP, mkFields] using hl
  | cons t ts ih =>
    intro s k l hl
    have hstep : s.insertAllP (t :: ts) = (s.insertP t.1 t.2).insertAllP ts := rfl
    have hdata : (s.insertP t.1 t.2).data
        = putBucket s.data (lowerName t.1) (OctopusHeader.new t.1 t.2 s.total_count) := rfl
    have htc : (s.insertP t.1 t.2).total_count = s.total_count + 1 := rfl
    have hmk : mkFields s.total_count (t :: ts)
        = OctopusHeader.new t.1 t.2 s.total_count :: mkFields (s.total_count + 1) ts := rfl
    rw [hstep, hmk, List.filter_cons]
    by_cases hkey : k = lowerName t.1
    · have hpred : (lowerName (OctopusHeader.new t.1 t.2 s.total_count).original_name
          == k) = true := by
        rw [new_original_name, beq_iff_eq]
        exact hkey.symm
      rw [hpred, if_pos rfl]
      have hbucket : getBucket (s.insertP t.1 t.2).data k
          = some (l ++ [OctopusHeader.new t.1 t.2 s.total_count]) := by
        rw [hdata, getBucket_putBucket, if_pos hkey, ← hkey, hl]
        rfl
      have := ih (s.insertP t.1 t.2) k
        (l ++ [OctopusHeader.new t.1 t.2 s.total_count]) hbucket
      rw [htc] at this
      rw [this, List.append_assoc]
      rfl
    · have hpred : (lowerName (OctopusHeader.new t.1 t.2 s.total_count).original_name
          == k) = false := by
        rw [new_original_name, beq_eq_false_iff_ne]
        exact fun hc => hkey hc.symm
      rw [hpred]
      simp only [Bool.false_eq_true, if_false]
      have hbucket : getBucket (s.insertP t.1 t.2).data k = some l := by
        rw [hdata, getBucket_putBucket, if_neg hkey]
        exact hl
      have := ih (s.insertP t.1 t.2) k l hbucket
      rw [htc] at this
      exact this

theorem getBucket_insertAllP_none :
    ∀ (tokens : List (String × Bytes)) (s : Headers) (k : String),
      getBucket s.data k = none →
      getBucket (s.insertAllP tokens).data k =
        (if ((mkFields s.total_count tokens).filter
              (fun f => lowerName f.original_name == k)) = []
         then none
         else some ((mkFields s.total_count tokens).filter
              (fun f => lowerName f.original_name == k))) := by
  intro tokens
  induction tokens with
  | nil =>
    intro s k hl
    simpa [Headers.insertAllP, mkFields] using hl
  | cons t ts ih =>
    intro s k hl
    have hstep : s.insertAllP (t :: ts) = (s.insertP t.1 t.2).insertAllP ts := rfl
    have hdata : (s.insertP t.1 t.2).data
        = putBucket s.data (lowerName t.1) (OctopusHeader.new t.1 t.2 s.total_count) := rfl
    have htc : (s.insertP t.1 t.2).total_count = s.total_count + 1 := rfl
    have hmk : mkFields s.total_count (t :: ts)
        = OctopusHeader.new t.1 t.2 s.total_count :: mkFields (s.total_count + 1) ts := rfl
    rw [hstep, hmk, List.filter_cons]
    by_cases hkey : k = lowerName t.1
    · have hpred : (lowerName (OctopusHeader.new t.1 t.2 s.total_count).original_name
          == k) = true := by
        rw [new_original_name, beq_iff_eq]
        exact hkey.symm
      rw [hpred, if_pos rfl]
      have hbucket : getBucket (s.insertP t.1 t.2).data k
          = some [OctopusHeader.new t.1 t.2 s.total_count] := by
        rw [hdata, getBucket_putBucket, if_pos hkey, ← hkey, hl]
        rfl
      have := getBucket_insertAllP_some ts (s.insertP t.1 t.2) k
        [OctopusHeader.new t.1 t.2 s.total_count] hbucket
      rw [htc] at this
      rw [this]
      rw [if_neg (by simp)]
      rfl
    · have hpred : (lowerName (OctopusHeader.new t.1 t.2 s.total_count).original_name
          == k) = false := by
        rw [new_original_name, beq_eq_false_iff_ne]
        exact fun hc => hkey hc.symm
      rw [hpred]
      simp only [Bool.false_eq_true, if_false]
      have hbucket : getBucket (s.insertP t.1 t.2).data k = none := by
        rw [hdata, getBucket_putBucket, if_neg hkey]
        exact hl
      have := ih (s.insertP t.1 t.2) k hbucket
      rw [htc] at this
      exact this

theorem mkFields_filter_key_values :
    ∀ (tokens : List (String × Bytes)) (n : Nat) (k : String),
      ((mkFields n tokens).filter
          (fun f => lowerName f.original_name == k)).map (fun f => f.value)
        = (tokens.filter (fun t => lowerName t.1 == k)).map Prod.snd := by
  intro tokens
  induction tokens with
  | nil => intro n k; simp [mkFields]
  | cons t ts ih =>
    intro n k
    rw [mkFields, List.filter_cons, List.filter_cons]
    by_cases hkey : (lowerName t.1 == k) = true
    · rw [show (lowerName (OctopusHeader.new t.1 t.2 n).original_name == k) = true
          from hkey, if_pos rfl, if_pos hkey, List.map_cons, List.map_cons,
        new_value, ih]
    · rw [show (lowerName (OctopusHeader.new t.1 t.2 n).original_name == k) = false
          from (by simpa using hkey), (by simpa using hkey :
            (lowerName t.1 == k) = false)]
      simp only [Bool.false_eq_true, if_false]
      exact ih (n + 1) k

theorem find?_eq_head?_filter :
    ∀ {α : Type} (p : α → Bool) (l : List α), l.find? p = (l.filter p).head? := by
  intro α p l
  induction l with
  | nil => rfl
  | cons a l ih =>
    rw [List.find?_cons, List.filter_cons]
    cases h : p a with
    | true => simp
    | false =>
      simp only [Bool.false_eq_true, if_false]
      exact ih

theorem get_insertAll {tokens : List (String × Bytes)} {n : Nat} {h : Headers}
    (hs : Headers.insertAll { data := [], total_count := n } tokens = some h)
    (name : String) :
    h.get name
      = (tokens.find? (fun t => lowerName t.1 == lowerName name)).map Prod.snd := by
  have heq := insertAll_eq_some hs
  subst heq
  unfold Headers.get
  have hb := getBucket_insertAllP_none tokens { data := [], total_count := n }
    (lowerName name) (getBucket_nil _)
  rw [hb]
  rw [find?_eq_head?_filter]
  by_cases hnil : ((mkFields n tokens).filter
      (fun f => lowerName f.original_name == lowerName name)) = []
  · rw [if_pos hnil]
    have hv := mkFields_filter_key_values tokens n (lowerName name)
    rw [hnil] at hv
    have : (tokens.filter (fun t => lowerName t.1 == lowerName name)).map Prod.snd
        = [] := hv.symm
    rw [List.map_eq_nil_iff] at this
    rw [this]
    rfl
  · rw [if_neg hnil]
    have hv := mkFields_filter_key_values tokens n (lowerName name)
    cases hmk : (mkFields n tokens).filter
        (fun f => lowerName f.original_name == lowerName name) with
    | nil => exact absurd hmk hnil
    | cons f fs =>
      rw [hmk] at hv
      cases htok : tokens.filter (fun t => lowerName t.1 == lowerName name) with
      | nil =>
        rw [htok] at hv
        simp at hv
      | cons t ts' =>
        rw [htok] at hv
        simp only [List.map_cons, List.cons.injEq] at hv
        simp only [List.head?_cons, Option.map_some]
        exact congrArg some hv.1

theorem validate_bucket_insertAll {tokens : List (String × Bytes)} {n : Nat}
    {h : Headers}
    (hs : Headers.insertAll { data := [], total_count := n } tokens = some h)
    (k : String) :
    (match getBucket h.data k with
     | some l => decide (l.length ≤ 1)
     | none => true)
      = decide ((tokens.filter (fun t => lowerName t.1 == k)).length ≤ 1) := by
  have heq := insertAll_eq_some hs
  subst heq
  have hb := getBucket_insertAllP_none tokens { data := [], total_count := n } k
    (getBucket_nil _)
  have hlen : ((mkFields n tokens).filter
        (fun f => lowerName f.original_name == k)).length
      = (tokens.filter (fun t => lowerName t.1 == k)).length := by
    have := congrArg List.length (mkFields_filter_key_values tokens n k)
    simpa using this
  rw [hb]
  by_cases hnil : ((mkFields n tokens).filter
      (fun f => lowerName f.original_name == k)) = []
  · rw [if_pos hnil]
    rw [hnil] at hlen
    simp at hlen
    simp [← hlen]
  · rw [if_neg hnil]
    simp only [hlen]

theorem from_raw_ok_elim {tokens : List (String × Bytes)} {h : Headers}
    (hok : Headers.from_raw tokens = .ok h) :
    Headers.insertAll { data := [], total_count := tokens.length } tokens = some h
      ∧ h.validate = true := by
  unfold Headers.from_raw at hok
  cases hins : Headers.insertAll { data := [], total_count := tokens.length } tokens with
  | none => rw [hins] at hok; exact absurd hok (by simp)
  | some h' =>
    rw [hins] at hok
    have hok' : (if h'.validate = true then Except.ok h'
        else Except.error HeaderError.validationFailed)
        = (Except.ok h : Except HeaderError Headers) := hok
    by_cases hval : h'.validate = true
    · rw [if_pos hval] at hok'
      cases hok'
      exact ⟨rfl, hval⟩
    · rw [if_neg hval] at hok'
      exact absurd hok' (by simp)

/-- The row of the serialization table at index `i` (empty when out of range). -/
def rowAt (temp : List Bytes) (i : Nat) : Bytes :=
  (temp[i]?).getD []

/-- Pure form of one `temp[order].extend(rendered line)` write. -/
def writeRowP (temp : List Bytes) (f : OctopusHeader) : List Bytes :=
  temp.set f.order (rowAt temp f.order ++ renderHeader f)

/-- Pure form of the whole write loop of `Headers.to_utf8`. -/
def writeAllP (temp : List Bytes) (fs : List OctopusHeader) : List Bytes :=
  fs.foldl writeRowP temp

theorem length_writeRowP (temp : List Bytes) (f : OctopusHeader) :
    (writeRowP temp f).length = temp.length :=
  List.length_set temp f.order _

theorem length_writeAllP :
    ∀ (fs : List OctopusHeader) (temp : List Bytes),
      (writeAllP temp fs).length = temp.length := by
  intro fs
  induction fs with
  | nil => intro temp; rfl
  | cons f fs ih =>
    intro temp
    show (writeAllP (writeRowP temp f) fs).length = temp.length
    rw [ih, length_writeRowP]

theorem extendRow_eq {temp : List Bytes} {i : Nat} (hi : i < temp.length)
    (row : Bytes) :
    extendRow temp i row = some (temp.set i (rowAt temp i ++ row)) := by
  unfold extendRow
  rw [dif_pos hi]
  have : temp.get ⟨i, hi⟩ = rowAt temp i := by
    unfold rowAt
    rw [List.getElem?_eq_getElem hi]
    rfl
  rw [this]

theorem writeRows_eq :
    ∀ (fs : List OctopusHeader) (temp : List Bytes),
      (∀ f ∈ fs, f.order < temp.length) →
      writeRows temp fs = some (writeAllP temp fs) := by
  intro fs
  induction fs with
  | nil => intro temp _; rfl
  | cons f fs ih =>
    intro temp hb
    have hf : f.order < temp.length := hb f (List.mem_cons_self f fs)
    show List.foldlM _ temp (f :: fs) = _
    rw [List.foldlM_cons, extendRow_eq hf]
    simp only [Option.bind_eq_bind, Option.some_bind]
    have hb' : ∀ g ∈ fs, g.order < (writeRowP temp f).length := by
      intro g hg
      rw [length_writeRowP]
      exact hb g (List.mem_cons_of_mem f hg)
    exact ih (writeRowP temp f) hb'

theorem bucketsFold_eq :
    ∀ (data : List (String × List OctopusHeader)) (temp : List Bytes),
      (∀ f ∈ (data.map Prod.snd).flatten, f.order < temp.length) →
      data.foldlM (fun t p => writeRows t p.2) temp
        = some (writeAllP temp ((data.map Prod.snd).flatten)) := by
  intro data
  induction data with
  | nil => intro temp _; rfl
  | cons p rest ih =>
    intro temp hb
    rw [List.foldlM_cons]
    have hbp : ∀ f ∈ p.2, f.order < temp.length := by
      intro f hf
      exact hb f (by simp [List.mem_flatten]; exact Or.inl hf)
    rw [writeRows_eq p.2 temp hbp]
    simp only [Option.bind_eq_bind, Option.some_bind]
    have hb' : ∀ f ∈ (rest.map Prod.snd).flatten,
        f.order < (writeAllP temp p.2).length := by
      intro f hf
      rw [length_writeAllP]
      exact hb f (by simp [List.mem_flatten] at hf ⊢; exact Or.inr hf)
    rw [ih (writeAllP temp p.2) hb']
    rw [show (List.map Prod.snd (p :: rest)).flatten
        = p.2 ++ (rest.map Prod.snd).flatten from rfl]
    rw [show writeAllP temp (p.2 ++ (rest.map Prod.snd).flatten)
        = writeAllP (writeAllP temp p.2) ((rest.map Prod.snd).flatten) from
      List.foldl_append _ _ _ _]

theorem writeAllP_getElem? :
    ∀ (fs : List OctopusHeader) (temp : List Bytes) (k : Nat),
      (∀ f ∈ fs, f.order < temp.length) →
      (writeAllP temp fs)[k]?
        = (temp[k]?).map
            (fun row =>
              row ++ ((fs.filter (fun f => f.order == k)).map renderHeader).flatten) := by
  intro fs
  induction fs with
  | nil =>
    intro temp k _
    show temp[k]? = _
    cases temp[k]? with
    | none => rfl
    | some row => simp
  | cons f fs ih =>
    intro temp k hb
    have hf : f.order < temp.length := hb f (List.mem_cons_self f fs)
    show (writeAllP (writeRowP temp f) fs)[k]? = _
    have hb' : ∀ g ∈ fs, g.order < (writeRowP temp f).length := by
      intro g hg
      rw [length_writeRowP]
      exact hb g (List.mem_cons_of_mem f hg)
    rw [ih (writeRowP temp f) k hb']
    rw [List.filter_cons]
    by_cases ho : f.order = k
    · have hpred : (f.order == k) = true := by simpa using ho
      rw [hpred, if_pos rfl]
      have hset : (writeRowP temp f)[k]?
          = some (rowAt temp k ++ renderHeader f) := by
        unfold writeRowP
        rw [List.getElem?_set, if_pos ho, if_pos (ho ▸ hf), ho]
      rw [hset]
      have htemp : temp[k]? = some (rowAt temp k) := by
        unfold rowAt
        rw [List.getElem?_eq_getElem (ho ▸ hf)]
        rfl
      rw [htemp]
      simp [List.append_assoc]
    · have hpred : (f.order == k) = false := by simpa using ho
      rw [hpred]
      simp only [Bool.false_eq_true, if_false]
      have hset : (writeRowP temp f)[k]? = temp[k]? := by
        unfold writeRowP
        rw [List.getElem?_set, if_neg ho]
      rw [hset]

theorem flatten_replicate_nil :
    ∀ n : Nat, (List.replicate n ([] : Bytes)).flatten = [] := by
  intro n
  induction n with
  | zero => rfl
  | succ m ih => simp [List.replicate_succ, ih]

theorem render_new (t : String × Bytes) (o : Nat) :
    renderHeader (OctopusHeader.new t.1 t.2 o) = lineBytes t := rfl

theorem to_utf8_from_raw {tokens : List (String × Bytes)} {h : Headers}
    (hok : Headers.from_raw tokens = .ok h) :
    h.to_utf8 = some (headerBlockBytes tokens) := by
  obtain ⟨hins, -⟩ := from_raw_ok_elim hok
  have heq := insertAll_eq_some hins
  subst heq
  have htc : (Headers.insertAllP { data := [], total_count := tokens.length }
      tokens).total_count = tokens.length + tokens.length := by
    rw [total_count_insertAllP]
  have hPerm : (allFields (Headers.insertAllP
        { data := [], total_count := tokens.length } tokens)).Perm
      (mkFields tokens.length tokens) := by
    have hp := allFields_insertAllP tokens { data := [], total_count := tokens.length }
    simpa [allFields] using hp
  unfold Headers.to_utf8
  have hbound : ∀ f ∈ ((Headers.insertAllP { data := [], total_count := tokens.length }
        tokens).data.map Prod.snd).flatten,
      f.order < (List.replicate ((Headers.insertAllP
        { data := [], total_count := tokens.length } tokens).total_count + 1)
        ([] : Bytes)).length := by
    intro f hf
    have hmem : f ∈ mkFields tokens.length tokens := hPerm.mem_iff.mp hf
    have := mkFields_mem_order hmem
    rw [List.length_replicate, htc]
    omega
  rw [bucketsFold_eq _ _ hbound]
  have hT : (writeAllP
        (List.replicate ((Headers.insertAllP
          { data := [], total_count := tokens.length } tokens).total_count + 1) [])
        ((Headers.insertAllP { data := [], total_count := tokens.length }
          tokens).data.map Prod.snd).flatten).set
        (Headers.insertAllP { data := [], total_count := tokens.length }
          tokens).total_count [13, 10]
      = List.replicate tokens.length []
        ++ (tokens.map lineBytes ++ [[13, 10]]) := by
    apply List.ext_getElem?
    intro k
    rw [List.getElem?_set]
    by_cases hk : (Headers.insertAllP { data := [], total_count := tokens.length }
        tokens).total_count = k
    · rw [if_pos hk]
      have hklen : k = tokens.length + tokens.length := by rw [← hk, htc]
      subst hklen
      rw [if_pos (by
        rw [length_writeAllP, List.length_replicate, htc]
        omega)]
      rw [List.getElem?_append_right (by
        simp only [List.length_replicate]
        omega)]
      rw [List.getElem?_append_right (by
        simp only [List.length_replicate, List.length_map]
        omega)]
      simp only [List.length_replicate, List.length_map]
      rw [show tokens.length + tokens.length - tokens.length - tokens.length = 0
        by omega]
      rfl
    · rw [if_neg hk]
      have hbound' : ∀ f ∈ ((Headers.insertAllP
            { data := [], total_count := tokens.length } tokens).data.map
            Prod.snd).flatten,
          f.order < (List.replicate ((Headers.insertAllP
            { data := [], total_count := tokens.length } tokens).total_count + 1)
            ([] : Bytes)).length := hbound
      rw [writeAllP_getElem? _ _ k hbound']
      rw [List.getElem?_replicate]
      have hfiltp := hPerm.filter (fun f => f.order == k)
      simp only [allFields] at hfiltp
      by_cases hk2 : k < (Headers.insertAllP
          { data := [], total_count := tokens.length } tokens).total_count + 1
      · rw [if_pos hk2]
        rw [htc] at hk2
        have hkne : k ≠ tokens.length + tokens.length := fun hc => hk (by rw [htc, hc])
        by_cases hklt : k < tokens.length
        · have hout : (mkFields tokens.length tokens).filter
              (fun f => f.order == k) = [] :=
            mkFields_filter_out (Or.inl hklt)
          rw [hout] at hfiltp
          rw [hfiltp.eq_nil]
          rw [List.getElem?_append_left (by
            simp only [List.length_replicate]
            omega)]
          rw [List.getElem?_replicate, if_pos hklt]
          simp
        · have hi : k - tokens.length < tokens.length := by omega
          have hksplit : k = tokens.length + (k - tokens.length) := by omega
          have hhit := mkFields_filter_hit hi tokens.length
          rw [← hksplit] at hhit
          rw [hhit] at hfiltp
          rw [List.perm_singleton.mp hfiltp]
          rw [List.getElem?_append_right (by
            simp only [List.length_replicate]
            omega)]
          rw [List.getElem?_append_left (by
            simp only [List.length_replicate, List.length_map]
            omega)]
          rw [List.getElem?_map]
          simp only [List.length_replicate]
          rw [List.getElem?_eq_getElem (by omega :
            k - tokens.length < tokens.length)]
          rw [show tokens.get ⟨k - tokens.length, hi⟩
              = tokens[k - tokens.length] from List.get_eq_getElem tokens _]
          simp [render_new]
      · rw [if_neg hk2]
        rw [htc] at hk2
        rw [List.getElem?_eq_none (by
          simp only [List.length_append, List.length_replicate, List.length_map,
            List.length_cons, List.length_nil]
          omega)]
        rfl
  have hflat : (List.replicate tokens.length ([] : Bytes)
        ++ (tokens.map lineBytes ++ [[13, 10]])).flatten
      = headerBlockBytes tokens := by
    rw [List.flatten_append, List.flatten_append, flatten_replicate_nil]
    simp [headerBlockBytes]
  exact congrArg some (hT.symm ▸ hflat)

/-- The header stores the program can actually build: `Headers::new`, any
sequence of successful `Headers::insert` calls, and successful
`Headers::from_raw` construction. -/
inductive ReachableHeaders : Headers → Prop where
  | new : ReachableHeaders Headers.new
  | insert_step (h h' : Headers) (name : String) (value : Bytes) :
      ReachableHeaders h → h.insert name value = some h' → ReachableHeaders h'
  | from_raw_ok (tokens : List (String × Bytes)) (h : Headers) :
      Headers.from_raw tokens = .ok h → ReachableHeaders h

theorem orders_lt_of_insertAll {tokens : List (String × Bytes)} {s h : Headers}
    (hs : s.insertAll tokens = some h)
    (hinv : ∀ f ∈ allFields s, f.order < s.total_count) :
    ∀ f ∈ allFields h, f.order < h.total_count := by
  have heq := insertAll_eq_some hs
  subst heq
  intro f hf
  have hperm := allFields_insertAllP tokens s
  have hmem := hperm.mem_iff.mp hf
  rw [total_count_insertAllP]
  rcases List.mem_append.mp hmem with hold | hmk
  · have := hinv f hold
    omega
  · have := mkFields_mem_order hmk
    omega

theorem reachable_orders_lt {h : Headers} (hr : ReachableHeaders h) :
    ∀ f ∈ allFields h, f.order < h.total_count := by
  induction hr with
  | new =>
    intro f hf
    simp [allFields, Headers.new] at hf
  | insert_step h h' name value hrh hins ih =>
    have heq := insert_eq_some hins
    subst heq
    intro f hf
    have hperm := allFields_insertP h name value
    have htc : (h.insertP name value).total_count = h.total_count + 1 := rfl
    rw [htc]
    rcases List.mem_cons.mp (hperm.mem_iff.mp hf) with hnew | hold
    · rw [hnew, new_order]
      omega
    · have := ih f hold
      omega
  | from_raw_ok tokens h hok =>
    obtain ⟨hins, -⟩ := from_raw_ok_elim hok
    exact orders_lt_of_insertAll hins
      (by intro f hf; simp [allFields] at hf)

theorem to_utf8_isSome_of_orders {h : Headers}
    (hb : ∀ f ∈ allFields h, f.order < h.total_count) :
    h.to_utf8.isSome = true := by
  unfold Headers.to_utf8
  have hbound : ∀ f ∈ (h.data.map Prod.snd).flatten,
      f.order < (List.replicate (h.total_count + 1) ([] : Bytes)).length := by
    intro f hf
    rw [List.length_replicate]
    have := hb f hf
    omega
  rw [bucketsFold_eq _ _ hbound]
  rfl

/-- C1: for every tokenized header block accepted by `Headers::from_raw`, the
serialization `to_utf8` reproduces the block byte-for-byte: every field in
global insertion order as `original_name ++ ": " ++ value ++ "\r\n"`, then one
trailing `"\r\n"`, regardless of which key-buckets the fields were stored in.
(Unique field names are not even needed: any store that passes validation
round-trips.) -/
theorem c1_serialize_round_trip (tokens : List (String × Bytes)) (h : Headers)
    (hok : Headers.from_raw tokens = .ok h) :
    h.to_utf8 = some (headerBlockBytes tokens) :=
  to_utf8_from_raw hok

/-- Witness for C1 at the concrete one-field block `"Host: a\r\n\r\n"`. -/
theorem c1_serialize_round_trip_witness :
    Headers.from_raw [("Host", [97])]
        = .ok ⟨[("host", [⟨"Host", [97], 1, 9⟩])], 2⟩
      ∧ Headers.to_utf8 ⟨[("host", [⟨"Host", [97], 1, 9⟩])], 2⟩
          = some (headerBlockBytes [("Host", [97])]) :=
  ⟨rfl,
   c1_serialize_round_trip [("Host", [97])]
     ⟨[("host", [⟨"Host", [97], 1, 9⟩])], 2⟩ rfl⟩

/-- C2: the claim says every stored field's `insertion_order` equals its
zero-based position in the input list.  `Headers::from_raw` seeds
`total_count` with `raw.len()` before the insertion loop, so the single field
of a one-field list receives order 1, not 0 — contradicting the source's own
comment on the `order` field ("0 is first, 1 is second, and so on"). -/
theorem c2_insertion_order_eval :
    (Headers.from_raw [("Host", [97])]).map
        (fun h => (allFields h).map (fun f => f.order))
      = .ok [1] := rfl

/-- C3 counterexample: the claim quantifies over every tokenized header list,
but on `[("X", [0xFF])]` — a list with no duplicate name at all, and with a
value byte sequence httparse permits — construction fails anyway: the
`String::from_utf8(..).unwrap()` building `value_str` aborts during the
insertion loop, before validation ever runs.  So "fails iff duplicate
host/content-length" is false as stated. -/
theorem c3_counterexample :
    Headers.from_raw [("X", [255])] = .error HeaderError.utf8Panic
      ∧ (([("X", [255])] : List (String × Bytes)).filter
            (fun t => lowerName t.1 == "host")).length ≤ 1
      ∧ (([("X", [255])] : List (String × Bytes)).filter
            (fun t => lowerName t.1 == "content-length")).length ≤ 1 :=
  ⟨rfl, by decide, by decide⟩

/-- C3 amended: for a tokenized header list whose values are all valid UTF-8
(so that the `value_str` unwrap cannot abort the insertion loop first),
`Headers::from_raw` fails exactly when more than one field's name lowercases
to `"host"` or more than one lowercases to `"content-length"`; any other
duplication is accepted.  A list with an invalid-UTF-8 value instead aborts
construction with the unwrap panic regardless of duplicates. -/
theorem c3_from_raw_fails_iff_dup (tokens : List (String × Bytes))
    (hv : ∀ t ∈ tokens, validUtf8 t.2 = true) :
    (∃ e, Headers.from_raw tokens = .error e)
      ↔ 1 < (tokens.filter (fun t => lowerName t.1 == "host")).length
        ∨ 1 < (tokens.filter (fun t => lowerName t.1 == "content-length")).length := by
  have hins := insertAll_of_valid
    ({ data := [], total_count := tokens.length } : Headers) hv
  have hfr : Headers.from_raw tokens
      = (if (Headers.insertAllP { data := [], total_count := tokens.length }
            tokens).validate = true
         then Except.ok (Headers.insertAllP
            { data := [], total_count := tokens.length } tokens)
         else Except.error HeaderError.validationFailed) := by
    unfold Headers.from_raw
    rw [hins]
  have hhost := validate_bucket_insertAll hins "host"
  have hcl := validate_bucket_insertAll hins "content-length"
  have hval : (Headers.insertAllP { data := [], total_count := tokens.length }
        tokens).validate
      = (decide ((tokens.filter (fun t => lowerName t.1 == "host")).length ≤ 1)
        && decide ((tokens.filter
            (fun t => lowerName t.1 == "content-length")).length ≤ 1)) := by
    unfold Headers.validate
    rw [hhost, hcl]
  constructor
  · rintro ⟨e, he⟩
    rw [hfr] at he
    by_cases hvb : (Headers.insertAllP { data := [], total_count := tokens.length }
        tokens).validate = true
    · rw [if_pos hvb] at he
      exact absurd he (by simp)
    · rw [Bool.not_eq_true] at hvb
      rw [hvb] at hval
      have := hval.symm
      simp only [Bool.and_eq_false_iff, decide_eq_false_iff_not, Nat.not_le] at this
      omega
  · intro hdup
    refine ⟨HeaderError.validationFailed, ?_⟩
    rw [hfr]
    have hvb : (Headers.insertAllP { data := [], total_count := tokens.length }
        tokens).validate = false := by
      rw [hval]
      simp only [Bool.and_eq_false_iff, decide_eq_false_iff_not, Nat.not_le]
      omega
    rw [hvb]
    simp

/-- Witness for C3: two `Host` fields make construction fail. -/
theorem c3_witness :
    ∃ e, Headers.from_raw [("Host", [97]), ("Host", [98])] = .error e :=
  (c3_from_raw_fails_iff_dup [("Host", [97]), ("Host", [98])]
    (by decide)).mpr (by decide)

/-- C4: lookup is case-insensitive and returns the value of the first-inserted
field whose name has the same lowercase form as the queried name, `none` when
no such field was inserted.  Stated for any store built by the insertion loop
from an empty map (covering both `Headers::new` + `insert` sequences and
`Headers::from_raw`, whose starting counter `n` is irrelevant to lookup). -/
theorem c4_get_case_insensitive (n : Nat) (tokens : List (String × Bytes))
    (h : Headers) (name : String)
    (hs : Headers.insertAll { data := [], total_count := n } tokens = some h) :
    h.get name
      = (tokens.find? (fun t => lowerName t.1 == lowerName name)).map Prod.snd :=
  get_insertAll hs name

/-- Witness for C4: after `insert("Host", "example.com")`, both `get("host")`
and `get("HOST")` return the value. -/
theorem c4_witness :
    Headers.insertAll { data := [], total_count := 0 }
        [("Host", strBytes "example.com")]
        = some ⟨[("host", [⟨"Host", strBytes "example.com", 0, 19⟩])], 1⟩
      ∧ Headers.get ⟨[("host", [⟨"Host", strBytes "example.com", 0, 19⟩])], 1⟩
          "host" = some (strBytes "example.com")
      ∧ Headers.get ⟨[("host", [⟨"Host", strBytes "example.com", 0, 19⟩])], 1⟩
          "HOST" = some (strBytes "example.com") :=
  ⟨rfl,
   (c4_get_case_insensitive 0 [("Host", strBytes "example.com")]
     ⟨[("host", [⟨"Host", strBytes "example.com", 0, 19⟩])], 1⟩ "host"
     rfl).trans (by decide),
   (c4_get_case_insensitive 0 [("Host", strBytes "example.com")]
     ⟨[("host", [⟨"Host", strBytes "example.com", 0, 19⟩])], 1⟩ "HOST"
     rfl).trans (by decide)⟩

/-- C5 counterexample: the claim says a non-numeric `Content-Length` value
makes `content_length()` fail with a recoverable ParseError; on the store
built from `"Content-Length: abc"` the code instead hits the
`parse().unwrap()` panic (`ClResult.panic`), a process abort rather than a
returned error. -/
theorem c5_counterexample :
    (Headers.from_raw [("Content-Length", [97, 98, 99])]).map
        Headers.content_length
      = .ok ClResult.panic := rfl

/-- C5 amended: on every store `Headers::from_raw` accepts,
`content_length()` returns the parsed value of the first (hence, after
validation, only) `content-length` field when it is a valid unsigned integer,
is absent when no such field exists, and panics (rather than returning a
recoverable error) when the value does not parse. -/
theorem c5_content_length_amended (tokens : List (String × Bytes)) (h : Headers)
    (hok : Headers.from_raw tokens = .ok h) :
    h.content_length
      = (match (tokens.find? (fun t => lowerName t.1 == "content-length")).map
            Prod.snd with
         | none => ClResult.absent
         | some v =>
           match parseUsize v with
           | some m => ClResult.value m
           | none => ClResult.panic) := by
  obtain ⟨hins, -⟩ := from_raw_ok_elim hok
  have hget := get_insertAll hins "content-length"
  have hlower : lowerName "content-length" = "content-length" := by decide
  rw [hlower] at hget
  unfold Headers.content_length
  rw [hget]

/-- Witness for C5 at the block `"Content-Length: 10"`: the parsed value 10 is
returned. -/
theorem c5_amended_witness :
    Headers.from_raw [("Content-Length", strBytes "10")]
        = .ok ⟨[("content-length",
            [⟨"Content-Length", strBytes "10", 1, 20⟩])], 2⟩
      ∧ Headers.content_length ⟨[("content-length",
            [⟨"Content-Length", strBytes "10", 1, 20⟩])], 2⟩
          = ClResult.value 10 :=
  ⟨rfl,
   (c5_content_length_amended [("Content-Length", strBytes "10")]
     ⟨[("content-length", [⟨"Content-Length", strBytes "10", 1, 20⟩])], 2⟩
     rfl).trans (by decide)⟩

/-- C6 counterexample: the claim classifies any target with no `:` as
relative; the code classifies the colon-free, slash-free target `"*"` as
absolute (`url_is_relative` returns `false`). -/
theorem c6_counterexample :
    url_is_relative "*" = false ∧ strFindIdx "*" ':' = none := by decide

/-- C6 amended: a target is relative exactly when it contains a `/` and
either contains no `:` or its first `/` comes before its first `:`; a target
without any `/` (such as `"*"` or an authority-form target) is always
classified absolute. -/
theorem c6_relative_amended (url : String) :
    url_is_relative url = true
      ↔ ∃ s, strFindIdx url '/' = some s
          ∧ ∀ c, strFindIdx url ':' = some c → s < c := by
  unfold url_is_relative
  cases hs : strFindIdx url '/' with
  | none => simp [hs]
  | some s =>
    cases hc : strFindIdx url ':' with
    | none => simp [hc]
    | some c => simp [hc]

/-- C7 counterexample: a relative target with no `Host` header makes
`Request::from_raw` panic (`headers.get("Host").unwrap()`), not fail with a
recoverable MissingHostError. -/
theorem c7_counterexample :
    Request.from_raw "GET" "/index.html" 1 [] = ReqResult.panic := rfl

/-- C7 amended: when the target is relative and a `Host` header is present,
the resolved URL buffer is `"http://" ++ host ++ path`; a header-construction
failure is propagated, so no partial request reaches forwarding; and a
relative target without a `Host` header aborts with a panic instead of a
recoverable MissingHostError. -/
theorem c7_from_raw_amended (method rawPath : String) (version : Nat)
    (tokens : List (String × Bytes)) :
    (∀ hs host, Headers.from_raw tokens = .ok hs →
        url_is_relative rawPath = true → hs.get "Host" = some host →
        Request.from_raw method rawPath version tokens
          = ReqResult.ok ⟨method, strBytes "http://" ++ host ++ strBytes rawPath,
              rawPath, version, hs⟩)
    ∧ (∀ e, Headers.from_raw tokens = .error e →
        Request.from_raw method rawPath version tokens = ReqResult.headerError e)
    ∧ (∀ hs, Headers.from_raw tokens = .ok hs →
        url_is_relative rawPath = true → hs.get "Host" = none →
        Request.from_raw method rawPath version tokens = ReqResult.panic) := by
  refine ⟨?_, ?_, ?_⟩
  · intro hs host hok hrel hhost
    unfold Request.from_raw
    rw [hok]
    simp [hrel, hhost]
  · intro e herr
    unfold Request.from_raw
    rw [herr]
  · intro hs hok hrel hhost
    unfold Request.from_raw
    rw [hok]
    simp [hrel, hhost]

/-- Witness for C7: `/index.html` with `Host: example.com` resolves to
`http://example.com/index.html`. -/
theorem c7_amended_witness :
    Request.from_raw "GET" "/index.html" 1 [("Host", strBytes "example.com")]
      = ReqResult.ok ⟨"GET",
          strBytes "http://" ++ strBytes "example.com" ++ strBytes "/index.html",
          "/index.html", 1,
          ⟨[("host", [⟨"Host", strBytes "example.com", 1, 19⟩])], 2⟩⟩ :=
  (c7_from_raw_amended "GET" "/index.html" 1
    [("Host", strBytes "example.com")]).1
    ⟨[("host", [⟨"Host", strBytes "example.com", 1, 19⟩])], 2⟩
    (strBytes "example.com") rfl (by decide) rfl

/-- C8: the claim says `Request::serialize` emits the request line followed by
the header serialization with no additional bytes after the header block.
Evaluating the code on `GET /index.html` with `Host: example.com` shows the
output is the request line, the header block (which already ends with its
`"\r\n"` terminator), and then one further `"\r\n"` appended by line 120 of
`src/request.rs` — a second block terminator the claim excludes. -/
theorem c8_serialize_eval :
    Request.serialize ⟨"GET", strBytes "http://example.com/index.html",
        "/index.html", 1,
        ⟨[("host", [⟨"Host", strBytes "example.com", 1, 19⟩])], 2⟩⟩
      = some (strBytes "GET /index.html HTTP/1.1\r\n"
          ++ headerBlockBytes [("Host", strBytes "example.com")]
          ++ strBytes "\r\n") := by decide

/-- C9: when every connect attempt fails, `Request::forward` writes the fixed
501-class response to the downstream sink and returns normally (no crash); the
response is a status line plus a `Content-Length: 6` header and a 6-byte body,
so the declared length matches the body length. -/
theorem c9_connect_exhausted_response (r : Request) (attempt : Nat → Bool)
    (chunks : List Bytes)
    (h0 : attempt 0 = false) (h1 : attempt 1 = false) (h2 : attempt 2 = false) :
    r.forwardOutput attempt chunks = some errorResponseBytes
      ∧ errorResponseBytes
          = strBytes "HTTP/1.1 501 Internal Server Error\r\n"
            ++ strBytes "Content-Length: " ++ strBytes "6" ++ strBytes "\r\n"
            ++ strBytes "Sorry\n"
      ∧ (strBytes "Sorry\n").length = 6
      ∧ parseUsize (strBytes "6") = some 6 := by
  refine ⟨?_, by decide, by decide, by decide⟩
  unfold Request.forwardOutput connectWithRetry
  rw [h0, h1, h2]
  simp

/-- Witness for C9 with an always-failing transport. -/
theorem c9_witness :
    Request.forwardOutput ⟨"GET", strBytes "/", "/", 1, Headers.new⟩
        (fun _ => false) [] = some errorResponseBytes
      ∧ errorResponseBytes
          = strBytes "HTTP/1.1 501 Internal Server Error\r\n"
            ++ strBytes "Content-Length: " ++ strBytes "6" ++ strBytes "\r\n"
            ++ strBytes "Sorry\n"
      ∧ (strBytes "Sorry\n").length = 6
      ∧ parseUsize (strBytes "6") = some 6 :=
  c9_connect_exhausted_response ⟨"GET", strBytes "/", "/", 1, Headers.new⟩
    (fun _ => false) [] rfl rfl rfl

/-- C10: in every reachable header store, every stored field's `order` is
strictly below `total_count`, so the write `temp[header.order()]` into the
`total_count + 1`-row table is always in bounds and `to_utf8` is total
(returns a value, never the out-of-bounds panic) on reachable stores. -/
theorem c10_orders_in_bounds (h : Headers) (hr : ReachableHeaders h) :
    (∀ f ∈ allFields h, f.order < h.total_count)
      ∧ h.to_utf8.isSome = true :=
  ⟨reachable_orders_lt hr, to_utf8_isSome_of_orders (reachable_orders_lt hr)⟩

/-- Witness for C10 at the reachable store `Headers::new`. -/
theorem c10_witness :
    (∀ f ∈ allFields Headers.new, f.order < Headers.new.total_count)
      ∧ Headers.new.to_utf8.isSome = true :=
  c10_orders_in_bounds Headers.new ReachableHeaders.new
